import Mathlib

/-!
Verification development for the chat server's incremental token-stream relay
(the `/stream` SSE endpoint): chunk decoding of the newline-delimited backend
stream, record interpretation, word-group speech buffering, and the stream
controller's event/persistence/termination behaviour.

The JavaScript source is embedded shallowly:

* strings are `List Char` (the byte/UTF-8 layer of `TextDecoder` is abstracted:
  chunks arrive as character sequences);
* `buffer.split(/\r?\n/)` is embedded as splitting on `'\n'` and then removing
  one trailing `'\r'` from every *completed* segment — the regex consumes one
  optional `'\r'` directly before each `'\n'`, and a `'\r'` not followed by
  `'\n'` stays in place, so the two formulations agree;
* `JSON.parse` is an external library; it is modelled as an abstract parameter
  `parse : List Char → ParseOutcome` where `ParseOutcome.ok resp dn` captures
  a successful parse with optional string `response` field (JS truthiness of a
  string means `resp = some t` with `t` nonempty triggers token handling) and
  truthy `done` flag, and `ParseOutcome.fail` captures a thrown parse error;
* side effects (`res.write` of the four event shapes, `Message.create`,
  `res.end`, `console.warn` on malformed lines) are reified as an `Eff` trace;
* possible exceptions of `res.write` are modelled by oracles
  `tf sf : Nat → Bool` telling whether the i-th token write resp. the i-th
  sentence-group write throws; every such write sits inside a `try` in the
  source — the per-line try/catch (lines 199–239) logs and continues when the
  main-loop token write throws, while the empty catches guarding the
  sentence-group writes (lines 220, 227, 265) and the trailing-buffer block
  (lines 245–259) swallow the exception silently;
* the backend fetch is a `Backend` value: connection failure, non-ok status
  (both thrown), or a delivered sequence of chunks optionally followed by a
  read error during iteration.
-/

/-- JS whitespace as used by `\s`, `trim` and the word splitting in the
source (ASCII part; exotic Unicode spaces are not needed by any claim). -/
def isWS (c : Char) : Bool :=
  c == ' ' || c == '\t' || c == '\n' || c == '\r' || c == '\x0b' || c == '\x0c'

/-- `String.prototype.trim`. -/
def trimChars (l : List Char) : List Char :=
  ((l.dropWhile isWS).reverse.dropWhile isWS).reverse

/-- Prepend a character to the first segment of a split result. -/
def consHead (c : Char) : List (List Char) → List (List Char)
  | [] => [[c]]
  | s :: ss => (c :: s) :: ss

/-- Split on `'\n'`, keeping empty segments; the result is never empty and its
last segment is the text after the last `'\n'`. -/
def splitLF : List Char → List (List Char)
  | [] => [[]]
  | c :: r => if c = '\n' then [] :: splitLF r else consHead c (splitLF r)

/-- Remove one trailing `'\r'` (the optional carriage return consumed by the
source's `/\r?\n/` terminator) from a completed segment. -/
def stripCR (s : List Char) : List Char :=
  if s.getLast? = some '\r' then s.dropLast else s

/-- Last segment of a split result (the new decode buffer). -/
def lastOr : List (List Char) → List Char
  | [] => []
  | [s] => s
  | _ :: s :: ss => lastOr (s :: ss)

/-- Chunk Decoder: `buffer += chunk; parts = buffer.split(/\r?\n/);
buffer = parts.pop();` — returns the completed records in order and the new
buffer (source lines 190–195). -/
def decode (buf chunk : List Char) : List (List Char) × List Char :=
  let ps := splitLF (buf ++ chunk)
  (ps.dropLast.map stripCR, lastOr ps)

/-- Folding the decoder over a whole sequence of raw chunks, from a given
buffer: all records emitted across the calls, in order, and the final buffer. -/
def decodeAll (buf : List Char) : List (List Char) → List (List Char) × List Char
  | [] => ([], buf)
  | c :: cs =>
    let d := decode buf c
    let r := decodeAll d.2 cs
    (d.1 ++ r.1, r.2)

/-- A byte stream made of line-terminated records (each terminated by `\n` or,
when the flag is set, by `\r\n`) followed by a trailing partial fragment. -/
def encodeRecs : List (List Char × Bool) → List Char → List Char
  | [], f => f
  | (r, crlf) :: rs, f => r ++ (if crlf then ['\r', '\n'] else ['\n']) ++ encodeRecs rs f

/-- A record is representable iff it contains no terminator and, when
terminated by a bare `\n`, does not end in `'\r'` (else the decoder would fold
that `'\r'` into the terminator). -/
def validRec (p : List Char × Bool) : Prop :=
  '\n' ∉ p.1 ∧ (p.2 = false → p.1.getLast? ≠ some '\r')

instance (p : List Char × Bool) : Decidable (validRec p) := by
  unfold validRec; infer_instance

/-- `replace(/\s+/g, ' ')`: collapse every maximal whitespace run into one
space (source line 211). -/
def collapseWS : List Char → List Char
  | [] => []
  | [c] => if isWS c then [' '] else [c]
  | c1 :: c2 :: rest =>
    if isWS c1 && isWS c2 then collapseWS (c2 :: rest)
    else (if isWS c1 then ' ' else c1) :: collapseWS (c2 :: rest)

/-- `split(' ')` on the collapsed, trimmed string. -/
def splitSp : List Char → List (List Char)
  | [] => [[]]
  | c :: r => if c = ' ' then [] :: splitSp r else consHead c (splitSp r)

/-- `speechBuffer.replace(/\s+/g, ' ').trim().split(' ').filter(Boolean)`
(source line 211): the whitespace-separated words of a string. -/
def wordsOf (l : List Char) : List (List Char) :=
  (splitSp (trimChars (collapseWS l))).filter (fun w => !w.isEmpty)

/-- The `while (words.length >= WORDS_THRESHOLD) { words.splice(0, T) }` loop
(source lines 214–221), via fuel; fuel `ws.length` suffices because every
iteration removes `t ≥ 1` words, so the fuel never runs out before the
loop condition fails. -/
def groupWordsAux (t : Nat) : Nat → List (List Char) → List (List (List Char)) × List (List Char)
  | 0, ws => ([], ws)
  | fuel + 1, ws =>
    if 0 < t ∧ t ≤ ws.length then
      let rest := groupWordsAux t fuel (ws.drop t)
      (ws.take t :: rest.1, rest.2)
    else ([], ws)

/-- Repeatedly splice the first `t` words off as full groups while at least
`t` words remain. -/
def groupWords (t : Nat) (ws : List (List Char)) :
    List (List (List Char)) × List (List Char) :=
  groupWordsAux t ws.length ws

/-- Word-Group Chunker absorb (source lines 209–221): append the token text to
the raw speech buffer, split into words, emit full `t`-word groups joined by
single spaces; the buffer is re-joined from the remaining words only when at
least one group was emitted (`speechBuffer = words.join(' ')` runs inside the
loop), otherwise it keeps the raw concatenation. -/
def speechAbsorb (t : Nat) (buf text : List Char) : List (List Char) × List Char :=
  let b := buf ++ text
  let gr := groupWords t (wordsOf b)
  (gr.1.map (List.intercalate [' ']),
   if gr.1.isEmpty then b else List.intercalate [' '] gr.2)

/-- Word-Group Chunker flush (source lines 224–229 and 263–267):
`leftover = (speechBuffer || '').trim(); if (leftover) { emit; speechBuffer = '' }`.
Returns the emitted group, if any, and the buffer afterwards; note the buffer
is cleared only when something was emitted. -/
def speechFlush (buf : List Char) : Option (List Char) × List Char :=
  if (trimChars buf).isEmpty then (none, buf) else (some (trimChars buf), [])

/-- Result of modelling `JSON.parse(line)` plus the two field accesses the
source makes: `ok resp dn` is a successful parse where `resp = some t` with
`t` nonempty makes `parsed.response` truthy and `dn = true` makes
`parsed.done` truthy; `fail` is a thrown parse error. -/
inductive ParseOutcome where
  | ok (resp : Option (List Char)) (dn : Bool)
  | fail
deriving DecidableEq

/-- Observable side effects of one `/stream` session, in program order. -/
inductive Eff where
  | persistUser (text : List Char)
  | fetchBackend
  | writeToken (text : List Char)
  | writeSentence (text : List Char)
  | logMalformed (line : List Char)
  | persistAssistant (text : List Char)
  | writeDone
  | writeError (msg : List Char)
  | closeChannel
deriving DecidableEq

/-- Mutable state of the streaming loop: decode buffer, `fullReply`,
`speechBuffer`, and the indices numbering token-write and sentence-write
attempts (consumed by the write-failure oracles). -/
structure St where
  buffer : List Char
  fullReply : List Char
  speechBuffer : List Char
  tokIdx : Nat
  sentIdx : Nat
deriving DecidableEq

/-- Result of processing one record or one chunk: continue the loop, or
return out of the handler from the `done` branch (with the persisted reply).
There is no exceptional result: every exception raised inside the per-line
`try` block (source lines 199–239) is caught by its own catch and the loop
continues. -/
inductive StepRes where
  | cont (st : St)
  | finished (rep : List Char)
deriving DecidableEq

/-- Behaviour of the backend fetch: the fetch call itself rejects, the
response has a non-ok status (the source throws in both cases), or a body
delivering `chunks` in order, optionally followed by a read error raised
while awaiting the next chunk. -/
inductive Backend where
  | fetchErr (msg : List Char)
  | badStatus (msg : List Char)
  | stream (chunks : List (List Char)) (readErr : Option (List Char))

/-- Which control path terminated the session (instrumentation; the
`doneEnd`/`physEnd` payload is the value of `fullReply` at termination). -/
inductive Outcome where
  | emptyPrompt
  | doneEnd (rep : List Char)
  | physEnd (rep : List Char)
  | caught (msg : List Char)
deriving DecidableEq

/-- Error payload of the empty-prompt guard (source line 106). -/
def emptyPromptMsg : List Char := "Empty prompt".toList

/-- Emit the sentence-group events for the groups spliced off by one absorb;
each `res.write` is wrapped in `try {} catch {}` in the source (line 220), so
a failing write (per the `sf` oracle) is swallowed and merely drops the
event. -/
def emitGroups (sf : Nat → Bool) : Nat → List (List Char) → List Eff × Nat
  | i, [] => ([], i)
  | i, g :: gs =>
    let rest := emitGroups sf (i + 1) gs
    ((if sf i then [] else [Eff.writeSentence g]) ++ rest.1, rest.2)

/-- The `parsed.done` branch (source lines 223–234): flush the speech buffer
as a final sentence group (write swallowed on failure), persist `fullReply`
unconditionally, emit the `done` event, and close the channel. -/
def doneFinish (sf : Nat → Bool) (st : St) : List Eff :=
  (match (speechFlush st.speechBuffer).1 with
   | some g => if sf st.sentIdx then [] else [Eff.writeSentence g]
   | none => []) ++
  [Eff.persistAssistant st.fullReply, Eff.writeDone, Eff.closeChannel]

/-- The `parsed.response` branch (source lines 202–221): the token is
forwarded, appended to `fullReply`, and absorbed by the word-group chunker,
whose groups are emitted. The token `res.write` (line 204) sits *inside* the
per-line `try` block (lines 199–239): when it throws (per the `tf` oracle),
the rest of the record's handling — the `fullReply` append, the chunker
absorb, and the `done` check — is skipped and the exception is caught by the
per-line catch, signalled here by the `true` flag; the stream state is
untouched because line 204 precedes both appends. The `tokIdx`/`sentIdx`
counters are oracle instrumentation numbering write attempts; they are not
program state. -/
def tokenPart (tf sf : Nat → Bool) (st : St) (resp : Option (List Char)) :
    List Eff × St × Bool :=
  match resp with
  | none => ([], st, false)
  | some t =>
    if t.isEmpty then ([], st, false)
    else if tf st.tokIdx then
      ([], ⟨st.buffer, st.fullReply, st.speechBuffer, st.tokIdx + 1, st.sentIdx⟩, true)
    else
      let p := speechAbsorb 8 st.speechBuffer t
      let eg := emitGroups sf st.sentIdx p.1
      (Eff.writeToken t :: eg.1,
       ⟨st.buffer, st.fullReply ++ t, p.2, st.tokIdx + 1, eg.2⟩, false)

/-- Interpret and act on one decoded record (source lines 196–239): trim;
skip empty lines; parse inside the per-line `try`. A parse failure — and
likewise any exception thrown inside the `try`, such as a failing token
write — is caught by the per-line catch (lines 236–238), which logs the line
via `console.warn` and lets the loop continue; otherwise the token content
is handled and then the `done` flag. -/
def processRecord (parse : List Char → ParseOutcome) (tf sf : Nat → Bool)
    (st : St) (part : List Char) : List Eff × StepRes :=
  if (trimChars part).isEmpty then ([], StepRes.cont st)
  else
    match parse (trimChars part) with
    | ParseOutcome.fail => ([Eff.logMalformed (trimChars part)], StepRes.cont st)
    | ParseOutcome.ok resp dn =>
      match tokenPart tf sf st resp with
      | (effs, st', true) =>
        (effs ++ [Eff.logMalformed (trimChars part)], StepRes.cont st')
      | (effs, st', false) =>
        if dn then (effs ++ doneFinish sf st', StepRes.finished st'.fullReply)
        else (effs, StepRes.cont st')

/-- Process the records of one chunk in order, stopping at a `done` return. -/
def processParts (parse : List Char → ParseOutcome) (tf sf : Nat → Bool) :
    St → List (List Char) → List Eff × StepRes
  | st, [] => ([], StepRes.cont st)
  | st, r :: rs =>
    match processRecord parse tf sf st r with
    | (effs, StepRes.cont st') =>
      let k := processParts parse tf sf st' rs
      (effs ++ k.1, k.2)
    | (effs, StepRes.finished rep) => (effs, StepRes.finished rep)

/-- The `for await (const chunk of response.body)` loop (source lines
189–241): decode each chunk against the running buffer, then process the
completed records. -/
def processChunksLoop (parse : List Char → ParseOutcome) (tf sf : Nat → Bool) :
    St → List (List Char) → List Eff × StepRes
  | st, [] => ([], StepRes.cont st)
  | st, c :: cs =>
    let d := decode st.buffer c
    match processParts parse tf sf ⟨d.2, st.fullReply, st.speechBuffer, st.tokIdx, st.sentIdx⟩ d.1 with
    | (effs, StepRes.cont st') =>
      let k := processChunksLoop parse tf sf st' cs
      (effs ++ k.1, k.2)
    | (effs, StepRes.finished rep) => (effs, StepRes.finished rep)

/-- The trailing-buffer handling at physical end-of-stream (source lines
244–260): if the decode buffer is nonempty, parse it *without* trimming; on
success with truthy `response`, write a token event and append the text to
both `fullReply` and `speechBuffer` (without running the word-group loop).
A parse failure — and likewise a thrown token write, since the `res.write`
at line 248 sits inside the try/catch at lines 245–259 whose catch ignores —
is swallowed silently: no malformed log, no state change, and the epilogue
continues. -/
def trailingTok (parse : List Char → ParseOutcome) (tf : Nat → Bool) (st : St) :
    List Eff × St :=
  if st.buffer.isEmpty then ([], st)
  else
    match parse st.buffer with
    | ParseOutcome.ok (some t) _ =>
      if t.isEmpty then ([], st)
      else if tf st.tokIdx then
        ([], ⟨st.buffer, st.fullReply, st.speechBuffer, st.tokIdx + 1, st.sentIdx⟩)
      else ([Eff.writeToken t],
            ⟨st.buffer, st.fullReply ++ t, st.speechBuffer ++ t, st.tokIdx + 1, st.sentIdx⟩)
    | _ => ([], st)

/-- The epilogue after the chunk loop ends without a `done` record (source
lines 244–273): trailing-buffer token, final speech-buffer flush (write
swallowed on failure), the fallback save `if (fullReply) Message.create(...)`,
and `res.end()`; returns the trace and the final `fullReply`. Nothing in the
epilogue can throw to the outer catch handler. -/
def finishStream (parse : List Char → ParseOutcome) (tf sf : Nat → Bool) (st : St) :
    List Eff × List Char :=
  match trailingTok parse tf st with
  | (effs, st') =>
    let fl := match (speechFlush st'.speechBuffer).1 with
      | some g => if sf st'.sentIdx then [] else [Eff.writeSentence g]
      | none => []
    let sv := if st'.fullReply.isEmpty then [] else [Eff.persistAssistant st'.fullReply]
    (effs ++ fl ++ sv ++ [Eff.closeChannel], st'.fullReply)

/-- The guard `if (!userText?.trim())` (source line 105): a missing prompt or
one that trims to the empty string. -/
def promptEmpty : Option (List Char) → Bool
  | none => true
  | some p => (trimChars p).isEmpty

/-- Initial loop state. -/
def initSt : St := ⟨[], [], [], 0, 0⟩

/-- The whole `/stream` handler (source lines 96–280) as a trace of effects
plus the terminating control path. The empty-prompt guard answers before any
backend or persistence activity; otherwise the user message is saved and the
backend fetched. The only errors that reach the outer catch handler (lines
275–279) are the fetch rejection, the non-ok status throw, and a read error
of the body iteration — channel-write exceptions are all caught by the inner
try/catch blocks; the outer catch writes an `error` event and ends the
response, and nothing else. -/
def streamHandler (prompt : Option (List Char)) (parse : List Char → ParseOutcome)
    (backend : Backend) (tf sf : Nat → Bool) : List Eff × Outcome :=
  if promptEmpty prompt then
    ([Eff.writeError emptyPromptMsg, Eff.closeChannel], Outcome.emptyPrompt)
  else
    let trimmed := trimChars (prompt.getD [])
    let pre := [Eff.persistUser trimmed, Eff.fetchBackend]
    match backend with
    | Backend.fetchErr m => (pre ++ [Eff.writeError m, Eff.closeChannel], Outcome.caught m)
    | Backend.badStatus m => (pre ++ [Eff.writeError m, Eff.closeChannel], Outcome.caught m)
    | Backend.stream chunks readErr =>
      match processChunksLoop parse tf sf initSt chunks with
      | (effs, StepRes.finished rep) => (pre ++ effs, Outcome.doneEnd rep)
      | (effs, StepRes.cont st) =>
        match readErr with
        | some m => (pre ++ effs ++ [Eff.writeError m, Eff.closeChannel], Outcome.caught m)
        | none =>
          match finishStream parse tf sf st with
          | (effs2, rep) => (pre ++ effs ++ effs2, Outcome.physEnd rep)

/-- Trace of a session run. -/
def runTrace (prompt : Option (List Char)) (parse : List Char → ParseOutcome)
    (backend : Backend) (tf sf : Nat → Bool) : List Eff :=
  (streamHandler prompt parse backend tf sf).1

/-- Control path of a session run. -/
def runOut (prompt : Option (List Char)) (parse : List Char → ParseOutcome)
    (backend : Backend) (tf sf : Nat → Bool) : Outcome :=
  (streamHandler prompt parse backend tf sf).2

/-- Channel events (the four event shapes written with `res.write`). -/
def isChan : Eff → Bool
  | Eff.writeToken _ => true
  | Eff.writeSentence _ => true
  | Eff.writeDone => true
  | Eff.writeError _ => true
  | _ => false

/-- Terminal lifecycle events. -/
def isTerm : Eff → Bool
  | Eff.writeDone => true
  | Eff.writeError _ => true
  | _ => false

/-- Persistence write of the assistant reply. -/
def isAP : Eff → Bool
  | Eff.persistAssistant _ => true
  | _ => false

/-- Channel close. -/
def isClose : Eff → Bool
  | Eff.closeChannel => true
  | _ => false

/-- Malformed-record log. -/
def isLog : Eff → Bool
  | Eff.logMalformed _ => true
  | _ => false

/-- Token event. -/
def isTok : Eff → Bool
  | Eff.writeToken _ => true
  | _ => false

/-- Effects that may appear strictly inside the streaming phase: anything but
a terminal event, a channel close, or an assistant-persist. -/
def plainE (e : Eff) : Bool := !(isTerm e || isClose e || isAP e)

/-- Every assistant-persist in the trace carries nonempty text. -/
def apNonempty : Eff → Bool
  | Eff.persistAssistant t => !t.isEmpty
  | _ => true

/-- All channel events before the last one are non-terminal. -/
def termLastOk (l : List Eff) : Bool :=
  ((l.filter isChan).dropLast).all (fun e => !isTerm e)

/-- Token text a record contributes to `fullReply` (empty for skipped,
malformed, or token-free records). -/
def tokenOf (parse : List Char → ParseOutcome) (r : List Char) : List Char :=
  if (trimChars r).isEmpty then []
  else
    match parse (trimChars r) with
    | ParseOutcome.ok (some t) _ => t
    | _ => []

/-- A record that neither carries a truthy `done` flag nor aborts processing:
it trims to nothing, fails to parse, or parses without `done`. -/
def recPlain (parse : List Char → ParseOutcome) (r : List Char) : Bool :=
  (trimChars r).isEmpty ||
    (match parse (trimChars r) with
     | ParseOutcome.fail => true
     | ParseOutcome.ok _ dn => !dn)

/-- Did the session end on the catch-handler (session-fatal) path? -/
def isCaught : Outcome → Bool
  | Outcome.caught _ => true
  | _ => false

/-- A concrete record interpreter used to instantiate the abstract
`JSON.parse` model on closed runs: `DONE` is a done-record, `R<text>` is a
token record carrying `<text>`, anything else is malformed. -/
def parseEx (l : List Char) : ParseOutcome :=
  if l = "DONE".toList then ParseOutcome.ok none true
  else if l.head? = some 'R' then ParseOutcome.ok (some l.tail) false
  else ParseOutcome.fail

theorem splitLF_nil : splitLF [] = [[]] := rfl

theorem splitLF_cons (c : Char) (r : List Char) :
    splitLF (c :: r) = if c = '\n' then [] :: splitLF r else consHead c (splitLF r) := rfl

theorem consHead_ne_nil (c : Char) (ls : List (List Char)) : consHead c ls ≠ [] := by
  cases ls <;> simp [consHead]

theorem splitLF_ne_nil (l : List Char) : splitLF l ≠ [] := by
  cases l with
  | nil => simp [splitLF]
  | cons c r =>
    rw [splitLF_cons]
    split
    · simp
    · exact consHead_ne_nil c (splitLF r)

theorem dropLast_cons_ne {α : Type} (a : α) (l : List α) (h : l ≠ []) :
    (a :: l).dropLast = a :: l.dropLast := by
  cases l with
  | nil => exact absurd rfl h
  | cons b m => rfl

theorem lastOr_cons_ne (a : List Char) (l : List (List Char)) (h : l ≠ []) :
    lastOr (a :: l) = lastOr l := by
  cases l with
  | nil => exact absurd rfl h
  | cons b m => rfl

theorem dropLast_append_ne {α : Type} (l1 l2 : List α) (h : l2 ≠ []) :
    (l1 ++ l2).dropLast = l1 ++ l2.dropLast := by
  induction l1 with
  | nil => rfl
  | cons a l1 ih =>
    rw [List.cons_append, dropLast_cons_ne a (l1 ++ l2) (by simp [h]), ih, List.cons_append]

theorem lastOr_append (l1 l2 : List (List Char)) (h : l2 ≠ []) :
    lastOr (l1 ++ l2) = lastOr l2 := by
  induction l1 with
  | nil => rfl
  | cons a l1 ih =>
    rw [List.cons_append, lastOr_cons_ne a (l1 ++ l2) (by simp [h]), ih]

theorem splitLF_single (x s : List Char) (h : splitLF x = [s]) : s = x := by
  induction x generalizing s with
  | nil => simpa [splitLF] using h.symm
  | cons c x ih =>
    rw [splitLF_cons] at h
    by_cases hc : c = '\n'
    · rw [if_pos hc] at h
      have : splitLF x = [] := by
        cases h'' : splitLF x
        · rfl
        · rw [h''] at h; simp at h
      exact absurd this (splitLF_ne_nil x)
    · rw [if_neg hc] at h
      cases h'' : splitLF x with
      | nil => exact absurd h'' (splitLF_ne_nil x)
      | cons u us =>
        rw [h''] at h
        simp only [consHead] at h
        have hus : us = [] := by
          cases us
          · rfl
          · simp at h
        subst hus
        have hs : s = c :: u := by simpa using h.symm
        have := ih u h''
        rw [hs, this]

/-- Splitting a concatenation: the completed segments of `x` are final, and the
tail segment of `x` carries over into the continued split. -/
theorem splitLF_append (x y : List Char) :
    splitLF (x ++ y) = (splitLF x).dropLast ++ splitLF (lastOr (splitLF x) ++ y) := by
  induction x with
  | nil => simp [splitLF, lastOr]
  | cons c x ih =>
    by_cases hc : c = '\n'
    · subst hc
      have hne := splitLF_ne_nil x
      rw [List.cons_append, splitLF_cons, if_pos rfl, splitLF_cons, if_pos rfl,
        dropLast_cons_ne _ _ hne, lastOr_cons_ne _ _ hne, List.cons_append, ih]
    · rw [List.cons_append, splitLF_cons, if_neg hc, splitLF_cons, if_neg hc]
      cases hS : splitLF x with
      | nil => exact absurd hS (splitLF_ne_nil x)
      | cons s ss =>
        cases ss with
        | nil =>
          have hsx : s = x := splitLF_single x s hS
          rw [show consHead c [s] = [c :: s] from rfl]
          rw [show ([c :: s] : List (List Char)).dropLast = [] from rfl]
          rw [show lastOr [c :: s] = c :: s from rfl]
          rw [List.nil_append, hsx, List.cons_append, splitLF_cons, if_neg hc]
        | cons t ts =>
          have hne : (t :: ts : List (List Char)) ≠ [] := by simp
          rw [hS] at ih
          rw [dropLast_cons_ne s (t :: ts) hne, lastOr_cons_ne s (t :: ts) hne,
            List.cons_append] at ih
          rw [ih]
          rw [show consHead c (s :: ((t :: ts).dropLast ++ splitLF (lastOr (t :: ts) ++ y)))
              = (c :: s) :: ((t :: ts).dropLast ++ splitLF (lastOr (t :: ts) ++ y)) from rfl]
          rw [show consHead c (s :: t :: ts) = (c :: s) :: t :: ts from rfl]
          rw [dropLast_cons_ne (c :: s) (t :: ts) hne, lastOr_cons_ne (c :: s) (t :: ts) hne,
            List.cons_append]

theorem splitLF_no_lf (l : List Char) (h : '\n' ∉ l) : splitLF l = [l] := by
  induction l with
  | nil => rfl
  | cons c r ih =>
    have hc : c ≠ '\n' := fun hh => h (hh ▸ List.mem_cons_self c r)
    rw [splitLF_cons, if_neg hc, ih (fun hr => h (List.mem_cons_of_mem c hr))]
    rfl

theorem lastOr_splitLF_no_lf (l : List Char) : '\n' ∉ lastOr (splitLF l) := by
  induction l with
  | nil => simp [splitLF, lastOr]
  | cons c r ih =>
    rw [splitLF_cons]
    by_cases hc : c = '\n'
    · rw [if_pos hc, lastOr_cons_ne _ _ (splitLF_ne_nil r)]
      exact ih
    · rw [if_neg hc]
      cases hS : splitLF r with
      | nil => exact absurd hS (splitLF_ne_nil r)
      | cons s ss =>
        cases ss with
        | nil =>
          simp only [consHead, lastOr]
          rw [hS] at ih
          simp only [lastOr] at ih
          intro hmem
          rcases List.mem_cons.mp hmem with h1 | h2
          · exact hc h1.symm
          · exact ih h2
        | cons t ts =>
          simp only [consHead]
          rw [lastOr_cons_ne (c :: s) (t :: ts) (by simp)]
          rw [hS, lastOr_cons_ne s (t :: ts) (by simp)] at ih
          exact ih

/-- The decode fold equals a single split of the whole stream: record sequence
and final buffer are independent of the chunking. -/
theorem decodeAll_spec (cs : List (List Char)) (buf : List Char) (h : '\n' ∉ buf) :
    decodeAll buf cs =
      ((splitLF (buf ++ cs.flatten)).dropLast.map stripCR, lastOr (splitLF (buf ++ cs.flatten))) := by
  induction cs generalizing buf with
  | nil =>
    simp only [decodeAll, List.flatten_nil, List.append_nil]
    rw [splitLF_no_lf buf h]
    simp [lastOr]
  | cons c cs ih =>
    simp only [decodeAll, decode, List.flatten_cons]
    have hb : '\n' ∉ lastOr (splitLF (buf ++ c)) := lastOr_splitLF_no_lf (buf ++ c)
    rw [ih (lastOr (splitLF (buf ++ c))) hb]
    have hsplit := splitLF_append (buf ++ c) cs.flatten
    have hne : splitLF (lastOr (splitLF (buf ++ c)) ++ cs.flatten) ≠ [] :=
      splitLF_ne_nil _
    rw [← List.append_assoc, hsplit, dropLast_append_ne _ _ hne, lastOr_append _ _ hne,
      List.map_append]

theorem splitLF_word_term (w z : List Char) (h : '\n' ∉ w) :
    splitLF (w ++ '\n' :: z) = w :: splitLF z := by
  induction w with
  | nil => rw [List.nil_append, splitLF_cons, if_pos rfl]
  | cons c w ih =>
    have hc : c ≠ '\n' := fun hh => h (hh ▸ List.mem_cons_self c w)
    rw [List.cons_append, splitLF_cons, if_neg hc,
      ih (fun hw => h (List.mem_cons_of_mem c hw))]
    rfl

theorem encodeRecs_cons_false (r : List Char) (rs : List (List Char × Bool)) (f : List Char) :
    encodeRecs ((r, false) :: rs) f = r ++ '\n' :: encodeRecs rs f := by
  simp [encodeRecs]

theorem encodeRecs_cons_true (r : List Char) (rs : List (List Char × Bool)) (f : List Char) :
    encodeRecs ((r, true) :: rs) f = (r ++ ['\r']) ++ '\n' :: encodeRecs rs f := by
  simp [encodeRecs]

theorem splitLF_encodeRecs (rs : List (List Char × Bool)) (f : List Char)
    (hrs : ∀ p ∈ rs, '\n' ∉ p.1) (hf : '\n' ∉ f) :
    splitLF (encodeRecs rs f) =
      rs.map (fun p => p.1 ++ if p.2 then ['\r'] else []) ++ [f] := by
  induction rs with
  | nil => simpa [encodeRecs] using splitLF_no_lf f hf
  | cons p rs ih =>
    obtain ⟨r, crlf⟩ := p
    have hr : '\n' ∉ r := hrs (r, crlf) (List.mem_cons_self _ _)
    have hrs2 : ∀ q ∈ rs, '\n' ∉ q.1 := fun q hq => hrs q (List.mem_cons_of_mem _ hq)
    cases crlf with
    | false =>
      rw [encodeRecs_cons_false, splitLF_word_term r _ hr, ih hrs2]
      simp
    | true =>
      have hr2 : '\n' ∉ r ++ ['\r'] := by
        intro hmem
        rcases List.mem_append.mp hmem with h1 | h2
        · exact hr h1
        · simp at h2
      rw [encodeRecs_cons_true, splitLF_word_term (r ++ ['\r']) _ hr2, ih hrs2]
      simp

theorem stripCR_no_cr (r : List Char) (h : r.getLast? ≠ some '\r') : stripCR r = r :=
  if_neg h

theorem stripCR_concat_cr (r : List Char) : stripCR (r ++ ['\r']) = r := by
  unfold stripCR
  rw [if_pos (by rw [List.getLast?_concat]), List.dropLast_concat]

/-- C4: for every byte stream forming `N` complete line-terminated records
(`\n` or `\r\n` terminators) plus an optional trailing partial fragment, and
for every way of splitting that stream into chunks, the Chunk Decoder emits
exactly those `N` records in arrival order across the decode calls (no record
twice), and the final buffer equals the trailing fragment. -/
theorem c4_decoder_rechunk (rs : List (List Char × Bool)) (f : List Char)
    (cs : List (List Char)) (hrs : ∀ p ∈ rs, validRec p) (hf : '\n' ∉ f)
    (hcs : cs.flatten = encodeRecs rs f) :
    decodeAll [] cs = (rs.map Prod.fst, f) := by
  rw [decodeAll_spec cs [] (by simp), List.nil_append, hcs,
    splitLF_encodeRecs rs f (fun p hp => (hrs p hp).1) hf]
  have hlast : ([f] : List (List Char)) ≠ [] := by simp
  rw [dropLast_append_ne _ _ hlast, lastOr_append _ _ hlast]
  rw [show ([f] : List (List Char)).dropLast = [] from rfl, List.append_nil,
    show lastOr [f] = f from rfl, List.map_map]
  refine congrArg (fun l => (l, f)) ?_
  apply List.map_congr_left
  intro p hp
  obtain ⟨hn, hcr⟩ := hrs p hp
  cases hpb : p.2 with
  | false =>
    simp only [Function.comp_apply, hpb, if_neg Bool.false_ne_true, List.append_nil]
    exact stripCR_no_cr p.1 (hcr hpb)
  | true =>
    simp only [Function.comp_apply, hpb, if_pos rfl]
    exact stripCR_concat_cr p.1

/-- C4 witness: a concrete stream of two records (one `\n`-terminated, one
`\r\n`-terminated) plus the fragment `ef`, cut at a point that splits the
second record across chunks. -/
theorem c4_decoder_rechunk_witness :
    decodeAll [] ["ab\nc".toList, "d\r\nef".toList] =
      (["ab".toList, "cd".toList], "ef".toList) :=
  c4_decoder_rechunk [("ab".toList, false), ("cd".toList, true)] "ef".toList
    ["ab\nc".toList, "d\r\nef".toList] (by decide) (by decide) (by decide)

theorem all_of_filter {l : List Eff} {p q : Eff → Bool} (h : l.all p = true) :
    (l.filter q).all p = true := by
  rw [List.all_eq_true] at h ⊢
  intro e he
  exact h e (List.mem_of_mem_filter he)

theorem all_of_dropLast {l : List Eff} {p : Eff → Bool} (h : l.all p = true) :
    l.dropLast.all p = true := by
  rw [List.all_eq_true] at h ⊢
  intro e he
  exact h e ((List.dropLast_sublist l).subset he)

theorem countP_zero_of_all {l : List Eff} {p : Eff → Bool}
    (h : l.all (fun e => !p e) = true) : l.countP p = 0 := by
  rw [List.countP_eq_zero]
  rw [List.all_eq_true] at h
  intro a ha
  have hh := h a ha
  simp only [Bool.not_eq_true'] at hh
  simp [hh]

theorem emitGroups_plain (sf : Nat → Bool) (gs : List (List Char)) :
    ∀ i, ((emitGroups sf i gs).1).all plainE = true := by
  induction gs with
  | nil => intro i; rfl
  | cons g gs ih =>
    intro i
    simp only [emitGroups, List.all_append]
    cases hsf : sf i <;> simp [hsf, ih (i + 1), plainE, isTerm, isClose, isAP]

theorem emitGroups_idx (sf : Nat → Bool) (gs : List (List Char)) :
    ∀ i, (emitGroups sf i gs).2 = i + gs.length := by
  induction gs with
  | nil => intro i; simp [emitGroups]
  | cons g gs ih =>
    intro i
    simp only [emitGroups, List.length_cons]
    rw [ih (i + 1)]
    omega

theorem doneFinish_shape (sf : Nat → Bool) (st : St) :
    ∃ pre, doneFinish sf st
        = pre ++ [Eff.persistAssistant st.fullReply, Eff.writeDone, Eff.closeChannel]
      ∧ pre.all plainE = true := by
  unfold doneFinish
  cases hfl : (speechFlush st.speechBuffer).1 with
  | none => exact ⟨[], rfl, rfl⟩
  | some g =>
    cases hsf : sf st.sentIdx with
    | true => exact ⟨[], by simp [hsf], rfl⟩
    | false =>
      exact ⟨[Eff.writeSentence g], by simp [hsf],
        by simp [plainE, isTerm, isClose, isAP]⟩

theorem tokenPart_none (tf sf : Nat → Bool) (st : St) :
    tokenPart tf sf st none = ([], st, false) := rfl

theorem tokenPart_empty (tf sf : Nat → Bool) (st : St) (t : List Char) (h : t.isEmpty = true) :
    tokenPart tf sf st (some t) = ([], st, false) := by
  simp [tokenPart, h]

theorem tokenPart_throw (tf sf : Nat → Bool) (st : St) (t : List Char)
    (h1 : t.isEmpty = false) (h2 : tf st.tokIdx = true) :
    tokenPart tf sf st (some t)
      = ([], ⟨st.buffer, st.fullReply, st.speechBuffer, st.tokIdx + 1, st.sentIdx⟩, true) := by
  simp [tokenPart, h1, h2]

theorem tokenPart_ok (tf sf : Nat → Bool) (st : St) (t : List Char)
    (h1 : t.isEmpty = false) (h2 : tf st.tokIdx = false) :
    tokenPart tf sf st (some t) =
      (Eff.writeToken t :: (emitGroups sf st.sentIdx (speechAbsorb 8 st.speechBuffer t).1).1,
       ⟨st.buffer, st.fullReply ++ t, (speechAbsorb 8 st.speechBuffer t).2,
        st.tokIdx + 1, (emitGroups sf st.sentIdx (speechAbsorb 8 st.speechBuffer t).1).2⟩,
       false)
    := by
  simp [tokenPart, h1, h2]

theorem tokenPart_plain (tf sf : Nat → Bool) (st : St) (resp : Option (List Char)) :
    ((tokenPart tf sf st resp).1).all plainE = true := by
  cases resp with
  | none => rfl
  | some t =>
    cases h1 : t.isEmpty with
    | false =>
      cases h2 : tf st.tokIdx with
      | false =>
        rw [tokenPart_ok tf sf st t h1 h2]
        simp [plainE, isTerm, isClose, isAP, emitGroups_plain]
      | true => rw [tokenPart_throw tf sf st t h1 h2]; rfl
    | true => rw [tokenPart_empty tf sf st t h1]; rfl

theorem processRecord_shape (parse : List Char → ParseOutcome) (tf sf : Nat → Bool)
    (st : St) (r : List Char) :
    (∃ effs st2, processRecord parse tf sf st r = (effs, StepRes.cont st2)
        ∧ effs.all plainE = true) ∨
    (∃ pre rep, processRecord parse tf sf st r
        = (pre ++ [Eff.persistAssistant rep, Eff.writeDone, Eff.closeChannel],
           StepRes.finished rep)
      ∧ pre.all plainE = true) := by
  cases hl : (trimChars r).isEmpty with
  | true => left; exact ⟨[], st, by simp [processRecord, hl], rfl⟩
  | false =>
    cases hp : parse (trimChars r) with
    | fail =>
      left
      exact ⟨[Eff.logMalformed (trimChars r)], st, by simp [processRecord, hl, hp],
        by simp [plainE, isTerm, isClose, isAP]⟩
    | ok resp dn =>
      have hplain := tokenPart_plain tf sf st resp
      cases htp : tokenPart tf sf st resp with
      | mk effs rest =>
        have hplain2 : effs.all plainE = true := by rw [htp] at hplain; exact hplain
        cases rest with
        | mk st2 thrw =>
          cases thrw with
          | true =>
            left
            refine ⟨effs ++ [Eff.logMalformed (trimChars r)], st2,
              by simp [processRecord, hl, hp, htp], ?_⟩
            rw [List.all_append, hplain2]
            rfl
          | false =>
            cases hdn : dn with
            | false =>
              left
              exact ⟨effs, st2, by simp [processRecord, hl, hp, htp, hdn], hplain2⟩
            | true =>
              right
              obtain ⟨pre, hpre, hpl⟩ := doneFinish_shape sf st2
              refine ⟨effs ++ pre, st2.fullReply, ?_, ?_⟩
              · simp [processRecord, hl, hp, htp, hdn, hpre, List.append_assoc]
              · rw [List.all_append, hplain2, hpl]; rfl

theorem processParts_shape (parse : List Char → ParseOutcome) (tf sf : Nat → Bool)
    (rs : List (List Char)) :
    ∀ st : St,
    (∃ effs st2, processParts parse tf sf st rs = (effs, StepRes.cont st2)
        ∧ effs.all plainE = true) ∨
    (∃ pre rep, processParts parse tf sf st rs
        = (pre ++ [Eff.persistAssistant rep, Eff.writeDone, Eff.closeChannel],
           StepRes.finished rep)
      ∧ pre.all plainE = true) := by
  induction rs with
  | nil => intro st; left; exact ⟨[], st, rfl, rfl⟩
  | cons r rs ih =>
    intro st
    rcases processRecord_shape parse tf sf st r with
      ⟨effs, st2, heq, hall⟩ | ⟨pre, rep, heq, hall⟩
    · rcases ih st2 with
        ⟨effs2, st3, heq2, hall2⟩ | ⟨pre2, rep, heq2, hall2⟩
      · left
        exact ⟨effs ++ effs2, st3, by simp only [processParts, heq, heq2],
          by rw [List.all_append, hall, hall2]; rfl⟩
      · right
        refine ⟨effs ++ pre2, rep, ?_, ?_⟩
        · simp only [processParts, heq, heq2, List.append_assoc]
        · rw [List.all_append, hall, hall2]; rfl
    · right
      exact ⟨pre, rep, by simp only [processParts, heq], hall⟩

theorem processChunksLoop_shape (parse : List Char → ParseOutcome) (tf sf : Nat → Bool)
    (cs : List (List Char)) :
    ∀ st : St,
    (∃ effs st2, processChunksLoop parse tf sf st cs = (effs, StepRes.cont st2)
        ∧ effs.all plainE = true) ∨
    (∃ pre rep, processChunksLoop parse tf sf st cs
        = (pre ++ [Eff.persistAssistant rep, Eff.writeDone, Eff.closeChannel],
           StepRes.finished rep)
      ∧ pre.all plainE = true) := by
  induction cs with
  | nil => intro st; left; exact ⟨[], st, rfl, rfl⟩
  | cons c cs ih =>
    intro st
    rcases processParts_shape parse tf sf (decode st.buffer c).1
        ⟨(decode st.buffer c).2, st.fullReply, st.speechBuffer, st.tokIdx, st.sentIdx⟩ with
      ⟨effs, st2, heq, hall⟩ | ⟨pre, rep, heq, hall⟩
    · rcases ih st2 with
        ⟨effs2, st3, heq2, hall2⟩ | ⟨pre2, rep, heq2, hall2⟩
      · left
        exact ⟨effs ++ effs2, st3, by simp only [processChunksLoop, heq, heq2],
          by rw [List.all_append, hall, hall2]; rfl⟩
      · right
        refine ⟨effs ++ pre2, rep, ?_, ?_⟩
        · simp only [processChunksLoop, heq, heq2, List.append_assoc]
        · rw [List.all_append, hall, hall2]; rfl
    · right
      exact ⟨pre, rep, by simp only [processChunksLoop, heq], hall⟩

theorem trailingTok_plain (parse : List Char → ParseOutcome) (tf : Nat → Bool) (st : St) :
    ((trailingTok parse tf st).1).all plainE = true := by
  unfold trailingTok
  by_cases hb : st.buffer.isEmpty
  · rw [if_pos hb]; rfl
  · rw [if_neg hb]
    cases hp : parse st.buffer with
    | fail => rfl
    | ok resp dn =>
      cases resp with
      | none => rfl
      | some t =>
        cases h1 : t.isEmpty with
        | true => simp [h1]
        | false =>
          cases h2 : tf st.tokIdx with
          | true => simp [h1, h2]
          | false => simp [h1, h2, plainE, isTerm, isClose, isAP]

theorem finishStream_shape (parse : List Char → ParseOutcome) (tf sf : Nat → Bool) (st : St) :
    ∃ pre rep, finishStream parse tf sf st
        = (pre ++ (if rep.isEmpty then [] else [Eff.persistAssistant rep])
             ++ [Eff.closeChannel], rep)
      ∧ pre.all plainE = true := by
  unfold finishStream
  have hplain := trailingTok_plain parse tf st
  cases htt : trailingTok parse tf st with
  | mk effs st2 =>
    have hplain2 : effs.all plainE = true := by rw [htt] at hplain; exact hplain
    dsimp only
    cases hfl : (speechFlush st2.speechBuffer).1 with
    | none =>
      refine ⟨effs, st2.fullReply, ?_, hplain2⟩
      simp [hfl, List.append_assoc]
    | some g =>
      cases hsf : sf st2.sentIdx with
      | true =>
        refine ⟨effs, st2.fullReply, ?_, hplain2⟩
        simp [hfl, hsf, List.append_assoc]
      | false =>
        refine ⟨effs ++ [Eff.writeSentence g], st2.fullReply, ?_, ?_⟩
        · simp [hfl, hsf, List.append_assoc]
        · rw [List.all_append, hplain2]
          simp [plainE, isTerm, isClose, isAP]

theorem handler_shape (prompt : Option (List Char)) (parse : List Char → ParseOutcome)
    (backend : Backend) (tf sf : Nat → Bool) :
    (runTrace prompt parse backend tf sf = [Eff.writeError emptyPromptMsg, Eff.closeChannel]
       ∧ runOut prompt parse backend tf sf = Outcome.emptyPrompt) ∨
    (∃ u E m, E.all plainE = true
       ∧ runTrace prompt parse backend tf sf
           = Eff.persistUser u :: Eff.fetchBackend :: (E ++ [Eff.writeError m, Eff.closeChannel])
       ∧ runOut prompt parse backend tf sf = Outcome.caught m) ∨
    (∃ u E rep, E.all plainE = true
       ∧ runTrace prompt parse backend tf sf
           = Eff.persistUser u :: Eff.fetchBackend ::
               (E ++ [Eff.persistAssistant rep, Eff.writeDone, Eff.closeChannel])
       ∧ runOut prompt parse backend tf sf = Outcome.doneEnd rep) ∨
    (∃ u E rep, E.all plainE = true
       ∧ runTrace prompt parse backend tf sf
           = Eff.persistUser u :: Eff.fetchBackend ::
               (E ++ (if rep.isEmpty then [] else [Eff.persistAssistant rep])
                  ++ [Eff.closeChannel])
       ∧ runOut prompt parse backend tf sf = Outcome.physEnd rep) := by
  unfold runTrace runOut streamHandler
  by_cases hpe : promptEmpty prompt = true
  · left
    rw [if_pos hpe]
    exact ⟨rfl, rfl⟩
  · rw [if_neg hpe]
    cases backend with
    | fetchErr m =>
      right; left
      exact ⟨trimChars (prompt.getD []), [], m, rfl, by simp, by simp⟩
    | badStatus m =>
      right; left
      exact ⟨trimChars (prompt.getD []), [], m, rfl, by simp, by simp⟩
    | stream chunks readErr =>
      rcases processChunksLoop_shape parse tf sf chunks initSt with
        ⟨effs, st2, heq, hall⟩ | ⟨pre, rep, heq, hall⟩
      · cases readErr with
        | some m =>
          right; left
          exact ⟨trimChars (prompt.getD []), effs, m, hall,
            by simp [heq, List.append_assoc], by simp [heq]⟩
        | none =>
          obtain ⟨pre2, rep, heq2, hall2⟩ := finishStream_shape parse tf sf st2
          right; right; right
          refine ⟨trimChars (prompt.getD []), effs ++ pre2, rep, ?_, ?_, ?_⟩
          · rw [List.all_append, hall, hall2]; rfl
          · simp [heq, heq2, List.append_assoc]
          · simp [heq, heq2]
      · right; right; left
        exact ⟨trimChars (prompt.getD []), pre, rep, hall,
          by simp [heq, List.append_assoc], by simp [heq]⟩

theorem all_not_term_of_plain {l : List Eff} (h : l.all plainE = true) :
    l.all (fun e => !isTerm e) = true := by
  rw [List.all_eq_true] at h ⊢
  intro e he
  have h2 := h e he
  cases hte : isTerm e
  · rfl
  · exfalso; simp [plainE, hte] at h2

theorem all_not_close_of_plain {l : List Eff} (h : l.all plainE = true) :
    l.all (fun e => !isClose e) = true := by
  rw [List.all_eq_true] at h ⊢
  intro e he
  have h2 := h e he
  cases hte : isClose e
  · rfl
  · exfalso; simp [plainE, hte] at h2

theorem all_not_ap_of_plain {l : List Eff} (h : l.all plainE = true) :
    l.all (fun e => !isAP e) = true := by
  rw [List.all_eq_true] at h ⊢
  intro e he
  have h2 := h e he
  cases hte : isAP e
  · rfl
  · exfalso; simp [plainE, hte] at h2

theorem termLastOk_concat_term (P : List Eff) (e : Eff)
    (hP : (P.filter isChan).all (fun x => !isTerm x) = true) :
    termLastOk (P ++ [e, Eff.closeChannel]) = true := by
  unfold termLastOk
  rw [show P ++ [e, Eff.closeChannel] = (P ++ [e]) ++ [Eff.closeChannel] from by simp]
  rw [List.filter_append, List.filter_append]
  rw [show List.filter isChan [Eff.closeChannel] = [] from rfl, List.append_nil]
  cases he : isChan e
  · rw [show List.filter isChan [e] = [] from by simp [List.filter, he], List.append_nil]
    exact all_of_dropLast hP
  · rw [show List.filter isChan [e] = [e] from by simp [List.filter, he], List.dropLast_concat]
    exact hP

theorem termLastOk_concat_close (P : List Eff)
    (hP : (P.filter isChan).all (fun x => !isTerm x) = true) :
    termLastOk (P ++ [Eff.closeChannel]) = true := by
  unfold termLastOk
  rw [List.filter_append, show List.filter isChan [Eff.closeChannel] = [] from rfl,
    List.append_nil]
  exact all_of_dropLast hP

theorem filter_chan_front (u : List Char) (E : List Eff) :
    (Eff.persistUser u :: Eff.fetchBackend :: E).filter isChan = E.filter isChan := rfl

theorem filter_chan_ap (E : List Eff) (rep : List Char) :
    (E ++ [Eff.persistAssistant rep]).filter isChan = E.filter isChan := by
  rw [List.filter_append, show List.filter isChan [Eff.persistAssistant rep] = [] from rfl,
    List.append_nil]

theorem filter_chan_sv (E : List Eff) (rep : List Char) :
    (E ++ (if rep.isEmpty then [] else [Eff.persistAssistant rep])).filter isChan
      = E.filter isChan := by
  cases hrep : rep.isEmpty with
  | true => simp [hrep]
  | false =>
    rw [if_neg (by simp [hrep])]
    exact filter_chan_ap E rep

theorem countAP_front (u : List Char) (E L : List Eff) :
    (Eff.persistUser u :: Eff.fetchBackend :: (E ++ L)).countP isAP
      = E.countP isAP + L.countP isAP := by
  simp [List.countP_cons, List.countP_append, isAP]

/-- C6: in every modelled session, channel side effects are strictly ordered:
every channel event before the last one is non-terminal (so all token and
sentence-group events precede any terminal `done`/`error` event, which is the
last channel event when one exists), and the trace ends with the single
channel close, so every persistence write precedes the close. -/
theorem c6_event_ordering (prompt : Option (List Char)) (parse : List Char → ParseOutcome)
    (backend : Backend) (tf sf : Nat → Bool) :
    termLastOk (runTrace prompt parse backend tf sf) = true ∧
    ∃ body, runTrace prompt parse backend tf sf = body ++ [Eff.closeChannel]
      ∧ body.all (fun e => !isClose e) = true := by
  rcases handler_shape prompt parse backend tf sf with
    ⟨h1, h2⟩ | ⟨u, E, m, hall, h1, h2⟩ | ⟨u, E, rep, hall, h1, h2⟩ | ⟨u, E, rep, hall, h1, h2⟩
  · refine ⟨?_, [Eff.writeError emptyPromptMsg], by rw [h1]; rfl, rfl⟩
    rw [h1]; rfl
  · have hPf : ((Eff.persistUser u :: Eff.fetchBackend :: E).filter isChan).all
        (fun x => !isTerm x) = true := by
      rw [filter_chan_front]
      exact all_of_filter (all_not_term_of_plain hall)
    refine ⟨?_, Eff.persistUser u :: Eff.fetchBackend :: (E ++ [Eff.writeError m]), ?_, ?_⟩
    · rw [h1, show Eff.persistUser u :: Eff.fetchBackend ::
            (E ++ [Eff.writeError m, Eff.closeChannel])
          = (Eff.persistUser u :: Eff.fetchBackend :: E)
              ++ [Eff.writeError m, Eff.closeChannel] from by simp]
      exact termLastOk_concat_term _ _ hPf
    · rw [h1]; simp
    · have hE := all_not_close_of_plain hall
      simp only [List.all_cons, List.all_append, hE]
      rfl
  · have hPf : ((((Eff.persistUser u :: Eff.fetchBackend :: E))
          ++ [Eff.persistAssistant rep]).filter isChan).all (fun x => !isTerm x) = true := by
      rw [filter_chan_ap, filter_chan_front]
      exact all_of_filter (all_not_term_of_plain hall)
    refine ⟨?_, Eff.persistUser u :: Eff.fetchBackend ::
        (E ++ [Eff.persistAssistant rep, Eff.writeDone]), ?_, ?_⟩
    · rw [h1, show Eff.persistUser u :: Eff.fetchBackend ::
            (E ++ [Eff.persistAssistant rep, Eff.writeDone, Eff.closeChannel])
          = ((Eff.persistUser u :: Eff.fetchBackend :: E) ++ [Eff.persistAssistant rep])
              ++ [Eff.writeDone, Eff.closeChannel] from by simp]
      exact termLastOk_concat_term _ _ hPf
    · rw [h1]; simp
    · have hE := all_not_close_of_plain hall
      simp only [List.all_cons, List.all_append, hE]
      rfl
  · refine ⟨?_, Eff.persistUser u :: Eff.fetchBackend ::
        (E ++ (if rep.isEmpty then [] else [Eff.persistAssistant rep])), ?_, ?_⟩
    · rw [h1, show Eff.persistUser u :: Eff.fetchBackend ::
            (E ++ (if rep.isEmpty then [] else [Eff.persistAssistant rep])
               ++ [Eff.closeChannel])
          = (Eff.persistUser u :: Eff.fetchBackend ::
              (E ++ (if rep.isEmpty then [] else [Eff.persistAssistant rep])))
              ++ [Eff.closeChannel] from by simp]
      apply termLastOk_concat_close
      rw [filter_chan_front, filter_chan_sv]
      exact all_of_filter (all_not_term_of_plain hall)
    · rw [h1]; simp
    · have hE := all_not_close_of_plain hall
      have hsv : (if rep.isEmpty = true then ([] : List Eff)
          else [Eff.persistAssistant rep]).all (fun e => !isClose e) = true := by
        cases hrep : rep.isEmpty with
        | true => rfl
        | false => rfl
      simp only [List.all_cons, List.all_append, hE, hsv]
      rfl

/-- C1 counterexample: a session accumulates token text `Hello`, then the
backend read fails; the resulting trace ends with the error event and channel
close but contains no assistant-persistence write at all — the catch handler
(source lines 275–279) never persists the accumulated partial reply, refuting
the claim that the error path still performs the persistence write. -/
theorem c1_counterexample :
    runTrace (some "hi".toList) parseEx
        (Backend.stream ["RHello\n".toList] (some "boom".toList))
        (fun _ => false) (fun _ => false)
      = [Eff.persistUser "hi".toList, Eff.fetchBackend, Eff.writeToken "Hello".toList,
         Eff.writeError "boom".toList, Eff.closeChannel] ∧
    (runTrace (some "hi".toList) parseEx
        (Backend.stream ["RHello\n".toList] (some "boom".toList))
        (fun _ => false) (fun _ => false)).all (fun e => !isAP e) = true := by
  decide

/-- C1 amended: whenever a session ends on the error path (fetch failure,
non-ok backend status, or a read error of the body iteration), the trace
ends with the error event followed by the channel close and contains *no*
persistence write of the accumulated reply: partial replies are dropped on
the error path, not persisted. -/
theorem c1_error_path_no_persist (prompt : Option (List Char))
    (parse : List Char → ParseOutcome) (backend : Backend) (tf sf : Nat → Bool)
    (m : List Char) (h : runOut prompt parse backend tf sf = Outcome.caught m) :
    (runTrace prompt parse backend tf sf).all (fun e => !isAP e) = true ∧
    ∃ body, runTrace prompt parse backend tf sf
      = body ++ [Eff.writeError m, Eff.closeChannel] := by
  rcases handler_shape prompt parse backend tf sf with
    ⟨h1, h2⟩ | ⟨u, E, m2, hall, h1, h2⟩ | ⟨u, E, rep, hall, h1, h2⟩ | ⟨u, E, rep, hall, h1, h2⟩
  · rw [h2] at h; simp at h
  · rw [h2] at h
    have hm : m2 = m := Outcome.caught.inj h
    subst hm
    constructor
    · rw [h1]
      have hE := all_not_ap_of_plain hall
      simp only [List.all_cons, List.all_append, hE]
      rfl
    · exact ⟨Eff.persistUser u :: Eff.fetchBackend :: E, by rw [h1]; simp⟩
  · rw [h2] at h; simp at h
  · rw [h2] at h; simp at h

/-- C1 amended witness: the error-path conclusion instantiated on the
concrete failing session of the counterexample. -/
theorem c1_error_path_no_persist_witness :
    (runTrace (some "hi".toList) parseEx
        (Backend.stream ["RHello\n".toList] (some "boom".toList))
        (fun _ => false) (fun _ => false)).all (fun e => !isAP e) = true ∧
    ∃ body, runTrace (some "hi".toList) parseEx
        (Backend.stream ["RHello\n".toList] (some "boom".toList))
        (fun _ => false) (fun _ => false)
      = body ++ [Eff.writeError "boom".toList, Eff.closeChannel] :=
  c1_error_path_no_persist (some "hi".toList) parseEx
    (Backend.stream ["RHello\n".toList] (some "boom".toList))
    (fun _ => false) (fun _ => false) "boom".toList (by decide)

/-- C2 counterexample: a stream consisting of a single `done` record — the
session ends with `FullReply` empty and no error, yet the done handler
(source line 232) performs the persistence write unconditionally, persisting
an empty assistant message; this refutes "the write is skipped if and only if
FullReply is empty and no error occurred". -/
theorem c2_counterexample :
    runTrace (some "hi".toList) parseEx (Backend.stream ["DONE\n".toList] none)
        (fun _ => false) (fun _ => false)
      = [Eff.persistUser "hi".toList, Eff.fetchBackend,
         Eff.persistAssistant [], Eff.writeDone, Eff.closeChannel] ∧
    (runTrace (some "hi".toList) parseEx (Backend.stream ["DONE\n".toList] none)
        (fun _ => false) (fun _ => false)).countP isAP = 1 := by
  decide

/-- C2 amended: the persistence write of `FullReply` happens exactly once on
the `DoneEvent` path — even when `FullReply` is empty — and the persisted
text is the accumulated reply; on the physical end-of-input path it happens
exactly once when `FullReply` is nonempty and is skipped when it is empty;
and on the error path and the empty-prompt path no persistence write occurs
at all. -/
theorem c2_persist_once_by_path (prompt : Option (List Char))
    (parse : List Char → ParseOutcome) (backend : Backend) (tf sf : Nat → Bool) :
    (∀ rep, runOut prompt parse backend tf sf = Outcome.doneEnd rep →
       (runTrace prompt parse backend tf sf).countP isAP = 1 ∧
       Eff.persistAssistant rep ∈ runTrace prompt parse backend tf sf) ∧
    (∀ rep, runOut prompt parse backend tf sf = Outcome.physEnd rep →
       (runTrace prompt parse backend tf sf).countP isAP
         = (if rep.isEmpty then 0 else 1)) ∧
    (∀ m, runOut prompt parse backend tf sf = Outcome.caught m →
       (runTrace prompt parse backend tf sf).countP isAP = 0) ∧
    (runOut prompt parse backend tf sf = Outcome.emptyPrompt →
       (runTrace prompt parse backend tf sf).countP isAP = 0) := by
  rcases handler_shape prompt parse backend tf sf with
    ⟨h1, h2⟩ | ⟨u, E, m, hall, h1, h2⟩ | ⟨u, E, rep0, hall, h1, h2⟩ |
    ⟨u, E, rep0, hall, h1, h2⟩
  · refine ⟨?_, ?_, ?_, ?_⟩
    · intro rep hr; rw [h2] at hr; simp at hr
    · intro rep hr; rw [h2] at hr; simp at hr
    · intro m hr; rw [h2] at hr; simp at hr
    · intro _; rw [h1]; rfl
  · refine ⟨?_, ?_, ?_, ?_⟩
    · intro rep hr; rw [h2] at hr; simp at hr
    · intro rep hr; rw [h2] at hr; simp at hr
    · intro m2 hr
      rw [h1, countAP_front, countP_zero_of_all (all_not_ap_of_plain hall)]
      rfl
    · intro hr; rw [h2] at hr; simp at hr
  · refine ⟨?_, ?_, ?_, ?_⟩
    · intro rep hr
      rw [h2] at hr
      have hreq : rep0 = rep := Outcome.doneEnd.inj hr
      subst hreq
      constructor
      · rw [h1, countAP_front, countP_zero_of_all (all_not_ap_of_plain hall)]
        rfl
      · rw [h1]; simp
    · intro rep hr; rw [h2] at hr; simp at hr
    · intro m hr; rw [h2] at hr; simp at hr
    · intro hr; rw [h2] at hr; simp at hr
  · refine ⟨?_, ?_, ?_, ?_⟩
    · intro rep hr; rw [h2] at hr; simp at hr
    · intro rep hr
      rw [h2] at hr
      have hreq : rep0 = rep := Outcome.physEnd.inj hr
      subst hreq
      rw [h1, show Eff.persistUser u :: Eff.fetchBackend ::
            (E ++ (if rep0.isEmpty then [] else [Eff.persistAssistant rep0])
               ++ [Eff.closeChannel])
          = Eff.persistUser u :: Eff.fetchBackend ::
            (E ++ ((if rep0.isEmpty then [] else [Eff.persistAssistant rep0])
               ++ [Eff.closeChannel])) from by simp,
        countAP_front, countP_zero_of_all (all_not_ap_of_plain hall)]
      cases hrep : rep0.isEmpty with
      | true => rfl
      | false => rfl
    · intro m hr; rw [h2] at hr; simp at hr
    · intro hr; rw [h2] at hr; simp at hr

/-- C2 amended witness: a done-path session with reply `Hi` — the trace holds
exactly one assistant-persistence write, of exactly that reply. -/
theorem c2_persist_once_by_path_witness :
    (runTrace (some "hi".toList) parseEx (Backend.stream ["RHi\nDONE\n".toList] none)
        (fun _ => false) (fun _ => false)).countP isAP = 1 ∧
    Eff.persistAssistant "Hi".toList ∈ runTrace (some "hi".toList) parseEx
        (Backend.stream ["RHi\nDONE\n".toList] none) (fun _ => false) (fun _ => false) :=
  (c2_persist_once_by_path (some "hi".toList) parseEx
      (Backend.stream ["RHi\nDONE\n".toList] none) (fun _ => false) (fun _ => false)).1
    "Hi".toList (by decide)

theorem processRecord_plain_case (parse : List Char → ParseOutcome) (sf : Nat → Bool)
    (st : St) (r : List Char) (h : recPlain parse r = true) :
    ∃ effs st2, processRecord parse (fun _ => false) sf st r = (effs, StepRes.cont st2)
      ∧ st2.fullReply = st.fullReply ++ tokenOf parse r := by
  cases hl : (trimChars r).isEmpty with
  | true =>
    exact ⟨[], st, by simp [processRecord, hl], by simp [tokenOf, hl]⟩
  | false =>
    cases hp : parse (trimChars r) with
    | fail =>
      exact ⟨[Eff.logMalformed (trimChars r)], st, by simp [processRecord, hl, hp],
        by simp [tokenOf, hl, hp]⟩
    | ok resp dn =>
      have hdn : dn = false := by simp [recPlain, hl, hp] at h; exact h
      subst hdn
      cases resp with
      | none =>
        exact ⟨[], st, by simp [processRecord, hl, hp, tokenPart],
          by simp [tokenOf, hl, hp]⟩
      | some t =>
        cases ht : t.isEmpty with
        | true =>
          have ht2 : t = [] := by simpa using ht
          refine ⟨[], st, by simp [processRecord, hl, hp, tokenPart, ht], ?_⟩
          simp [tokenOf, hl, hp, ht2]
        | false =>
          refine ⟨Eff.writeToken t ::
              (emitGroups sf st.sentIdx (speechAbsorb 8 st.speechBuffer t).1).1,
            ⟨st.buffer, st.fullReply ++ t, (speechAbsorb 8 st.speechBuffer t).2,
             st.tokIdx + 1,
             (emitGroups sf st.sentIdx (speechAbsorb 8 st.speechBuffer t).1).2⟩, ?_, ?_⟩
          · simp [processRecord, hl, hp, tokenPart_ok (fun _ => false) sf st t ht rfl]
          · simp [tokenOf, hl, hp]

theorem processParts_plain_all (parse : List Char → ParseOutcome) (sf : Nat → Bool)
    (rs : List (List Char)) :
    ∀ st : St, (∀ r ∈ rs, recPlain parse r = true) →
    ∃ effs st2, processParts parse (fun _ => false) sf st rs = (effs, StepRes.cont st2)
      ∧ st2.fullReply = st.fullReply ++ (rs.map (tokenOf parse)).flatten := by
  induction rs with
  | nil => intro st _; exact ⟨[], st, rfl, by simp⟩
  | cons r rs ih =>
    intro st h
    obtain ⟨effs, st2, heq, hfr⟩ :=
      processRecord_plain_case parse sf st r (h r (List.mem_cons_self r rs))
    obtain ⟨effs2, st3, heq2, hfr2⟩ := ih st2 (fun q hq => h q (List.mem_cons_of_mem r hq))
    refine ⟨effs ++ effs2, st3, by simp only [processParts, heq, heq2], ?_⟩
    rw [hfr2, hfr]
    simp [List.append_assoc]

/-- C5: a malformed (unparseable) record produces exactly one malformed log
and no channel event, leaves the state untouched, and does not abort the
stream; across any sequence of non-`done` records on a healthy channel the
processing continues and `FullReply` equals its old value extended by the
concatenation of the valid records' token texts, in arrival order. -/
theorem c5_malformed_tolerated (parse : List Char → ParseOutcome) (sf : Nat → Bool)
    (st : St) (rs : List (List Char)) (h : ∀ r ∈ rs, recPlain parse r = true) :
    (∃ effs st2, processParts parse (fun _ => false) sf st rs = (effs, StepRes.cont st2)
       ∧ st2.fullReply = st.fullReply ++ (rs.map (tokenOf parse)).flatten) ∧
    (∀ r, (trimChars r).isEmpty = false → parse (trimChars r) = ParseOutcome.fail →
       processRecord parse (fun _ => false) sf st r
         = ([Eff.logMalformed (trimChars r)], StepRes.cont st)) := by
  constructor
  · exact processParts_plain_all parse sf rs st h
  · intro r hl hp
    simp [processRecord, hl, hp]

/-- C5 witness: the record sequence `RHello`, `garbage`, `Rworld` — the
malformed middle record is only logged, and the accumulated reply is the
concatenation of the two valid token texts in order. -/
theorem c5_malformed_tolerated_witness :
    (∃ effs st2, processParts parseEx (fun _ => false) (fun _ => false) initSt
         ["RHello".toList, "garbage".toList, "Rworld".toList]
       = (effs, StepRes.cont st2)
       ∧ st2.fullReply = initSt.fullReply
           ++ ((["RHello".toList, "garbage".toList, "Rworld".toList].map
                 (tokenOf parseEx)).flatten)) ∧
    processRecord parseEx (fun _ => false) (fun _ => false) initSt "garbage".toList
      = ([Eff.logMalformed "garbage".toList], StepRes.cont initSt) := by
  have h := c5_malformed_tolerated parseEx (fun _ => false) initSt
    ["RHello".toList, "garbage".toList, "Rworld".toList] (by decide)
  exact ⟨h.1, h.2 "garbage".toList (by decide) (by decide)⟩

/-- C7 counterexample: the first sentence-group write fails (per the `sf`
oracle). The empty catch wrapping it (source line 220) swallows the
exception without any logging: the session continues to a normal `done`
completion and the trace contains no log effect anywhere — the group
`a b c d e f g h` is simply lost. This refutes the claim's assertion that a
failing non-terminal write is *logged*: for sentence-group writes nothing is
logged. -/
theorem c7_counterexample :
    runTrace (some "hi".toList) parseEx
        (Backend.stream ["Ra b c d e f g h i
DONE
".toList] none)
        (fun _ => false) (fun i => i == 0)
      = [Eff.persistUser "hi".toList, Eff.fetchBackend,
         Eff.writeToken "a b c d e f g h i".toList,
         Eff.writeSentence "i".toList,
         Eff.persistAssistant "a b c d e f g h i".toList,
         Eff.writeDone, Eff.closeChannel] ∧
    (runTrace (some "hi".toList) parseEx
        (Backend.stream ["Ra b c d e f g h i
DONE
".toList] none)
        (fun _ => false) (fun i => i == 0)).all (fun e => !isLog e) = true ∧
    runOut (some "hi".toList) parseEx
        (Backend.stream ["Ra b c d e f g h i
DONE
".toList] none)
        (fun _ => false) (fun i => i == 0)
      = Outcome.doneEnd "a b c d e f g h i".toList := by
  decide

/-- C7 amended: no channel-write exception ever escalates to the
session-fatal error path, but only the token-event write is logged. First:
a throwing token write on a token-bearing record is caught by the per-line
catch (source lines 236–238), which logs the line and continues the loop
with the stream state unchanged (the `fullReply` and speech-buffer appends
after the write are skipped). Second: record processing never ends
exceptionally and its control-flow result, including the successor state, is
independent of which sentence-group writes fail — a failing sentence write
(empty catch, line 220) merely drops the event, silently. Third: at session
level, a backend stream with no read error never ends on the catch path,
whatever write failures occur. -/
theorem c7_write_failures_tolerated :
    (∀ (parse : List Char → ParseOutcome) (tf sf : Nat → Bool) (st : St) (r : List Char)
       (t : List Char) (dn : Bool),
       (trimChars r).isEmpty = false → parse (trimChars r) = ParseOutcome.ok (some t) dn →
       t.isEmpty = false → tf st.tokIdx = true →
       processRecord parse tf sf st r
         = ([Eff.logMalformed (trimChars r)],
            StepRes.cont ⟨st.buffer, st.fullReply, st.speechBuffer, st.tokIdx + 1,
                          st.sentIdx⟩)) ∧
    (∀ (parse : List Char → ParseOutcome) (tf sfa sfb : Nat → Bool) (st : St)
       (r : List Char),
       (processRecord parse tf sfa st r).2 = (processRecord parse tf sfb st r).2) ∧
    (∀ (prompt : Option (List Char)) (parse : List Char → ParseOutcome)
       (chunks : List (List Char)) (tf sf : Nat → Bool),
       isCaught (runOut prompt parse (Backend.stream chunks none) tf sf) = false) := by
  refine ⟨?_, ?_, ?_⟩
  · intro parse tf sf st r t dn hl hp ht htf
    simp [processRecord, hl, hp, tokenPart_throw tf sf st t ht htf]
  · intro parse tf sfa sfb st r
    cases hl : (trimChars r).isEmpty with
    | true => simp [processRecord, hl]
    | false =>
      cases hp : parse (trimChars r) with
      | fail => simp [processRecord, hl, hp]
      | ok resp dn =>
        cases resp with
        | none =>
          cases hdn : dn <;> simp [processRecord, hl, hp, tokenPart, hdn]
        | some t =>
          cases ht : t.isEmpty with
          | true =>
            cases hdn : dn <;> simp [processRecord, hl, hp, tokenPart, ht, hdn]
          | false =>
            cases htf : tf st.tokIdx with
            | true =>
              simp [processRecord, hl, hp, tokenPart_throw tf sfa st t ht htf,
                tokenPart_throw tf sfb st t ht htf]
            | false =>
              have ha := tokenPart_ok tf sfa st t ht htf
              have hb := tokenPart_ok tf sfb st t ht htf
              cases hdn : dn with
              | false => simp [processRecord, hl, hp, ha, hb, emitGroups_idx, hdn]
              | true => simp [processRecord, hl, hp, ha, hb, emitGroups_idx, hdn]
  · intro prompt parse chunks tf sf
    unfold runOut streamHandler
    by_cases hpe : promptEmpty prompt = true
    · rw [if_pos hpe]; rfl
    · rw [if_neg hpe]
      cases hL : processChunksLoop parse tf sf initSt chunks with
      | mk effs sres =>
        cases sres with
        | cont st => simp [hL, isCaught]
        | finished rep => simp [hL, isCaught]

/-- C7 amended witness: a token-bearing record whose token write throws —
the record processor yields exactly the malformed-style log and continues
with unchanged stream state; and a no-read-error session with every token
write failing still avoids the session-fatal path. -/
theorem c7_write_failures_tolerated_witness :
    processRecord parseEx (fun _ => true) (fun _ => false) initSt "RHello".toList
      = ([Eff.logMalformed "RHello".toList], StepRes.cont ⟨[], [], [], 1, 0⟩) ∧
    isCaught (runOut (some "hi".toList) parseEx
        (Backend.stream ["RHello
".toList] none) (fun _ => true) (fun _ => false))
      = false :=
  ⟨c7_write_failures_tolerated.1 parseEx (fun _ => true) (fun _ => false) initSt
      "RHello".toList "Hello".toList false (by decide) (by decide) (by decide) (by decide),
   c7_write_failures_tolerated.2.2 (some "hi".toList) parseEx ["RHello
".toList]
      (fun _ => true) (fun _ => false)⟩

/-- C8 counterexample: flushing a whitespace-only buffer emits nothing but
also leaves the buffer unchanged — `' '` is not cleared to the empty string
(the source resets `speechBuffer` only inside `if (leftover)`), refuting
"after any flush the SpeechBuffer is empty". -/
theorem c8_counterexample :
    (speechFlush (' ' :: [])).1 = none ∧ (speechFlush (' ' :: [])).2 = ' ' :: [] ∧
    ((' ' :: [] : List Char).isEmpty = false) := by
  decide

/-- C8 amended: a second flush with no intervening absorb returns no group
(and no emitted group is ever empty); after a flush that emitted a group the
buffer is empty, while a flush that emitted nothing leaves the (whitespace-
only) buffer unchanged. -/
theorem c8_flush_idem (b : List Char) :
    (speechFlush (speechFlush b).2).1 = none ∧
    Option.all (fun g => !g.isEmpty) (speechFlush b).1 = true ∧
    ((speechFlush b).1 = none ∨ (speechFlush b).2 = []) := by
  unfold speechFlush
  cases h : (trimChars b).isEmpty with
  | true => simp [h]
  | false => simp [h, show trimChars ([] : List Char) = [] from rfl]

/-- C9: at physical end-of-stream, a nonempty decode buffer that parses with
a truthy `response` is emitted as a token event (the first effect of the
epilogue), appended to `FullReply`, and included in the persisted reply even
though it was never line-terminated; a trailing buffer that fails to parse is
ignored silently — the epilogue emits no malformed log and no token, and
completes with the unchanged `FullReply`. -/
theorem c9_trailing_fragment :
    (∀ (parse : List Char → ParseOutcome) (sf : Nat → Bool) (st : St) (t : List Char)
       (d : Bool), st.buffer.isEmpty = false →
       parse st.buffer = ParseOutcome.ok (some t) d → t.isEmpty = false →
       (finishStream parse (fun _ => false) sf st).1.head? = some (Eff.writeToken t) ∧
       Eff.persistAssistant (st.fullReply ++ t)
         ∈ (finishStream parse (fun _ => false) sf st).1 ∧
       (finishStream parse (fun _ => false) sf st).2 = st.fullReply ++ t) ∧
    (∀ (parse : List Char → ParseOutcome) (tf sf : Nat → Bool) (st : St),
       parse st.buffer = ParseOutcome.fail →
       (finishStream parse tf sf st).1.all (fun e => !(isLog e || isTok e)) = true ∧
       (finishStream parse tf sf st).2 = st.fullReply) := by
  constructor
  · intro parse sf st t d hb hp ht
    have htt : trailingTok parse (fun _ => false) st
        = ([Eff.writeToken t],
           ⟨st.buffer, st.fullReply ++ t, st.speechBuffer ++ t, st.tokIdx + 1,
            st.sentIdx⟩) := by
      simp [trailingTok, hb, hp, ht]
    have hne : (st.fullReply ++ t).isEmpty = false := by
      cases hfe : (st.fullReply ++ t).isEmpty with
      | false => rfl
      | true =>
        exfalso
        have h0 : st.fullReply ++ t = [] := by simpa using hfe
        have h1 : t = [] := (List.append_eq_nil.mp h0).2
        rw [h1] at ht
        simp at ht
    refine ⟨?_, ?_, ?_⟩
    · simp [finishStream, htt]
    · simp [finishStream, htt, hne]
    · simp [finishStream, htt]
  · intro parse tf sf st hp
    have htt : trailingTok parse tf st = ([], st) := by
      by_cases hb : st.buffer.isEmpty
      · simp [trailingTok, hb]
      · simp [trailingTok, hb, hp]
    constructor
    · simp only [finishStream, htt]
      cases hfl : (speechFlush st.speechBuffer).1 with
      | none => cases hsv : st.fullReply.isEmpty <;> simp [hfl, hsv, isLog, isTok]
      | some g =>
        cases hsf2 : sf st.sentIdx <;> cases hsv : st.fullReply.isEmpty <;>
          simp [hfl, hsf2, hsv, isLog, isTok]
    · simp [finishStream, htt]

/-- C9 witness: the epilogue run on a session whose buffer holds the
unterminated fragment `Rtail` (parsing to token text `tail`), and on one
whose buffer `zz` does not parse. -/
theorem c9_trailing_fragment_witness :
    ((finishStream parseEx (fun _ => false) (fun _ => false)
        ⟨"Rtail".toList, "Hello ".toList, "Hello ".toList, 1, 0⟩).1.head?
       = some (Eff.writeToken "tail".toList) ∧
     Eff.persistAssistant ("Hello ".toList ++ "tail".toList)
       ∈ (finishStream parseEx (fun _ => false) (fun _ => false)
           ⟨"Rtail".toList, "Hello ".toList, "Hello ".toList, 1, 0⟩).1 ∧
     (finishStream parseEx (fun _ => false) (fun _ => false)
         ⟨"Rtail".toList, "Hello ".toList, "Hello ".toList, 1, 0⟩).2
       = "Hello ".toList ++ "tail".toList) ∧
    ((finishStream parseEx (fun _ => false) (fun _ => false)
         ⟨"zz".toList, "Prev".toList, [], 3, 1⟩).1.all
        (fun e => !(isLog e || isTok e)) = true ∧
     (finishStream parseEx (fun _ => false) (fun _ => false)
         ⟨"zz".toList, "Prev".toList, [], 3, 1⟩).2
       = "Prev".toList) :=
  ⟨c9_trailing_fragment.1 parseEx (fun _ => false)
      ⟨"Rtail".toList, "Hello ".toList, "Hello ".toList, 1, 0⟩ "tail".toList false
      (by decide) (by decide) (by decide),
   c9_trailing_fragment.2 parseEx (fun _ => false) (fun _ => false)
      ⟨"zz".toList, "Prev".toList, [], 3, 1⟩ (by decide)⟩

/-- C10: a missing or whitespace-only prompt makes the session emit exactly
one error event and close the channel — the whole trace is those two
effects, so no backend request, no persistence write of either role, and no
token, sentence-group, or done event occurs. -/
theorem c10_empty_prompt (prompt : Option (List Char)) (parse : List Char → ParseOutcome)
    (backend : Backend) (tf sf : Nat → Bool) (h : promptEmpty prompt = true) :
    streamHandler prompt parse backend tf sf
      = ([Eff.writeError emptyPromptMsg, Eff.closeChannel], Outcome.emptyPrompt) := by
  unfold streamHandler
  rw [if_pos h]

/-- C10 witness: a whitespace-only prompt against an arbitrary backend. -/
theorem c10_empty_prompt_witness :
    streamHandler (some "  ".toList) parseEx (Backend.fetchErr []) (fun _ => false)
        (fun _ => false)
      = ([Eff.writeError emptyPromptMsg, Eff.closeChannel], Outcome.emptyPrompt) :=
  c10_empty_prompt (some "  ".toList) parseEx (Backend.fetchErr []) (fun _ => false)
    (fun _ => false) (by decide)

/-- C3: concrete evaluation of the Word-Group Chunker at threshold 8 on the
TokenEvents `"a b c d e f g h i "` and `"j"`. Their concatenation holds
W = 10 whitespace-separated words, so the claim predicts one full 8-word
group and a flush group of W mod 8 = 2 words `i j`. The code instead emits
the full group and then a flush group holding the single merged word `ij`:
the emission-time re-join `speechBuffer = words.join(' ')` discarded the
trailing separator after `i`, so the next token `j` is glued onto it. Only 9
words are emitted in total and the original word sequence is not preserved. -/
theorem c3_word_merge_eval :
    speechAbsorb 8 [] "a b c d e f g h i ".toList
      = (["a b c d e f g h".toList], "i".toList) ∧
    speechAbsorb 8 "i".toList "j".toList = ([], "ij".toList) ∧
    (speechFlush "ij".toList).1 = some "ij".toList ∧
    wordsOf ("a b c d e f g h i ".toList ++ "j".toList)
      = ["a".toList, "b".toList, "c".toList, "d".toList, "e".toList, "f".toList,
         "g".toList, "h".toList, "i".toList, "j".toList] ∧
    wordsOf "a b c d e f g h".toList ++ wordsOf "ij".toList
      = ["a".toList, "b".toList, "c".toList, "d".toList, "e".toList, "f".toList,
         "g".toList, "h".toList, "ij".toList] := by
  decide
